import Mathlib

/-
Verification development for the completeness-magnitude estimation module
(class Catalog in completeness_magnitude.py).

The embedding models the catalog as the list of its event magnitudes
(exact rationals; the DateTime column only ever contributes row counts) and
the bin width delta_magnitude as a positive rational.  The constructor's
rounding, magnitude grid (np.arange) and cumulative right-tail counts are
translated directly.  pandas groupby produces bins sorted by key, cumsum

and diff behave as running sum and successive difference with a missing
first entry (NaN), and idxmax returns the key of the first maximal
non-missing value, or fails when every value is missing; missing values
are modelled with Option.  The goodness-of-fit residual is a real-valued
computation (it contains log10 and powers of 10); non-finite float results
(NaN or infinity, which numpy propagates silently and which fail every
comparison with a threshold) are modelled as Option.none.
-/

namespace CompletenessMagnitude

/-- np.round: round half to even, as used for the magnitude rounding
`np.round(m / delta_magnitude) * delta_magnitude` in the constructor. -/
def roundHalfEven (q : ℚ) : ℤ :=
  if q - ⌊q⌋ < 1/2 then ⌊q⌋
  else if 1/2 < q - ⌊q⌋ then ⌊q⌋ + 1
  else if ⌊q⌋ % 2 = 0 then ⌊q⌋ else ⌊q⌋ + 1

/-- The state stored by Catalog.__init__ that later methods read: the
magnitude column after in-place rounding, and delta_magnitude. -/
structure CatalogData where
  mags : List ℚ
  dm : ℚ
deriving DecidableEq

/-- Modelled from the spec: the InvalidInputError class of the spec's error
taxonomy is not present in the source.  The source constructor does fail on
an empty catalog at the grouping step (indexing the first element of an
empty groupby index raises); the spec names that construction-time failure
InvalidInputError, and this embedding uses the spec's name for it. -/
inductive CtorError where
  | invalidInput
deriving DecidableEq

/-- The body of Catalog.__init__: round every magnitude to the nearest
multiple of delta_magnitude (half to even, as np.round). -/
def buildCatalog (raw : List ℚ) (dm : ℚ) : CatalogData :=
  ⟨raw.map (fun m => (roundHalfEven (m / dm) : ℚ) * dm), dm⟩

/-- Catalog construction: an empty event catalog fails (the source raises
from the empty grouping; see CtorError), otherwise the magnitudes are
rounded in place. -/
def mkCatalog (raw : List ℚ) (dm : ℚ) : Except CtorError CatalogData :=
  if raw = [] then .error .invalidInput else .ok (buildCatalog raw dm)

/-- Insert a value into a strictly sorted list, keeping it strictly
sorted (helper for the groupby key index). -/
def insertDedup (x : ℚ) : List ℚ → List ℚ
  | [] => [x]
  | y :: ys => if x < y then x :: y :: ys else if x = y then y :: ys else y :: insertDedup x ys

/-- The sorted list of distinct rounded magnitudes: the index of
catalog.groupby of the Magnitude column. -/
def distinctSorted (l : List ℚ) : List ℚ := l.foldr insertDedup []

/-- groupby of the Magnitude column followed by count: each distinct rounded
magnitude paired with the number of events having it, sorted by magnitude. -/
def groupCounts (c : CatalogData) : List (ℚ × ℕ) :=
  (distinctSorted c.mags).map (fun v => (v, c.mags.count v))

/-- np.arange for rational arguments: start, start+step, ... strictly below
stop, with ceil((stop-start)/step) entries for a positive step. -/
def arangeQ (start stop step : ℚ) : List ℚ :=
  (List.range (⌈(stop - start) / step⌉).toNat).map (fun i : ℕ => start + (i : ℚ) * step)

/-- self.magnitudes_in_catalog: np.arange from the smallest distinct rounded
magnitude to the largest (inclusive), stepped by delta_magnitude. -/
def magnitudes_in_catalog (c : CatalogData) : List ℚ :=
  arangeQ ((distinctSorted c.mags).headD 0) ((distinctSorted c.mags).getLastD 0 + c.dm) c.dm

/-- self.cumulative_magnitude_frequency: for each grid value, the number of
events whose rounded magnitude exceeds it minus delta_magnitude / 2. -/
def cumulative_magnitude_frequency (c : CatalogData) : List ℕ :=
  (magnitudes_in_catalog c).map (fun g => c.mags.countP (fun m => decide (g - c.dm / 2 < m)))

/-- Running cumulative sum of the per-bin counts (pandas cumsum), with the
accumulator carried. -/
def cumsumGo (acc : ℕ) : List (ℚ × ℕ) → List (ℚ × ℕ)
  | [] => []
  | (m, c) :: r => (m, acc + c) :: cumsumGo (acc + c) r

/-- pandas cumsum over the per-bin counts. -/
def cumsumPairs (l : List (ℚ × ℕ)) : List (ℚ × ℕ) := cumsumGo 0 l

/-- Successive differences after the first entry (helper for diffPairs). -/
def diffGo (prev : ℕ) : List (ℚ × ℕ) → List (ℚ × Option ℤ)
  | [] => []
  | (m, c) :: r => (m, some ((c : ℤ) - (prev : ℤ))) :: diffGo c r

/-- pandas diff: the first entry carries no value (NaN), every later entry
is the difference with its predecessor. -/
def diffPairs : List (ℚ × ℕ) → List (ℚ × Option ℤ)
  | [] => []
  | (m, c) :: r => (m, none) :: diffGo c r

/-- Scan for the key of the first maximal non-missing value (helper for
idxmaxOpt), given the best key and value so far. -/
def idxmaxGo (bm : ℚ) (bv : ℤ) : List (ℚ × Option ℤ) → ℚ
  | [] => bm
  | (_, none) :: r => idxmaxGo bm bv r
  | (m, some v) :: r => if bv < v then idxmaxGo m v r else idxmaxGo bm bv r

/-- pandas Series.idxmax on a series with missing values: missing entries
are skipped, the key of the first maximal value is returned, and the
operation fails (none) when every entry is missing. -/
def idxmaxOpt : List (ℚ × Option ℤ) → Option ℚ
  | [] => none
  | (_, none) :: r => idxmaxOpt r
  | (m, some v) :: r => some (idxmaxGo m v r)

/-- Scan for the key of the first maximal count (helper for idxmaxCounts). -/
def idxmaxCountsGo (bm : ℚ) (bv : ℕ) : List (ℚ × ℕ) → ℚ
  | [] => bm
  | (m, v) :: r => if bv < v then idxmaxCountsGo m v r else idxmaxCountsGo bm bv r

/-- pandas Series.idxmax on an all-numeric series: the key of the first
maximal value, none only for an empty series. -/
def idxmaxCounts : List (ℚ × ℕ) → Option ℚ
  | [] => none
  | (m, v) :: r => some (idxmaxCountsGo m v r)

/-- most_common_magnitude in Catalog.maximum_curvature: the rounded
magnitude with the largest event count (used only for the console
message). -/
def most_common_magnitude (c : CatalogData) : Option ℚ :=
  idxmaxCounts (groupCounts c)

/-- Catalog.maximum_curvature: idxmax of the diff of the cumsum of the
per-bin event counts.  none models pandas idxmax failing on an all-missing
series (which happens exactly when the catalog has a single distinct
rounded magnitude). -/
def maximum_curvature (c : CatalogData) : Option ℚ :=
  idxmaxOpt (diffPairs (cumsumPairs (groupCounts c)))

/-- tested_magnitudes in Catalog.goodness_of_fit_test: the 15 candidate
cutoffs max_curvature - 0.4 + (i - 1)/10 for i = 0..14. -/
def tested_magnitudes (seed : ℚ) (i : Fin 15) : ℚ :=
  seed - 4/10 + (((i : ℕ) : ℚ) - 1) / 10

/-- One iteration of the goodness-of-fit sweep at cutoff tm: select the
sub-catalog of rounded magnitudes above tm - delta_magnitude / 2, fit the
Gutenberg-Richter b value (Aki-Utsu) and a value, build the modelled
cumulative curve over the grid, restrict both curves to grid values at or
above tm, and return 100 * sum |obs - model| / sum obs.  none models a
non-finite float result: an empty sub-catalog (mean of an empty slice is
NaN, log10 of 0 is -inf), a zero Aki-Utsu denominator (division by zero),
or a zero observed sum (division by zero); numpy propagates these as
NaN/inf values, not exceptions. -/
noncomputable def residual (cat : CatalogData) (tm : ℚ) : Option ℝ :=
  let sub := cat.mags.filter (fun m => decide (tm - cat.dm / 2 < m))
  if sub = [] then none
  else
    let μ : ℚ := sub.sum / (sub.length : ℚ)
    if μ - (tm - cat.dm / 2) = 0 then none
    else
      let b : ℝ := Real.logb 10 (Real.exp 1) / ((μ : ℝ) - ((tm - cat.dm / 2 : ℚ) : ℝ))
      let a : ℝ := Real.logb 10 ((sub.length : ℕ) : ℝ) + b * (tm : ℝ)
      let grid := magnitudes_in_catalog cat
      let cum := cumulative_magnitude_frequency cat
      let idxs := (List.range grid.length).filter (fun i => decide (tm ≤ grid.getD i 0))
      let obsSum : ℕ := (idxs.map (fun i => cum.getD i 0)).sum
      if obsSum = 0 then none
      else
        some ((idxs.map (fun i =>
            |((cum.getD i 0 : ℕ) : ℝ) - Real.rpow 10 (a - b * ((grid.getD i 0 : ℚ) : ℝ))|)).sum
          / ((obsSum : ℕ) : ℝ) * 100)

/-- Comparison of a float residual against a threshold as numpy performs it
in residuals <= 5: a missing (non-finite) value fails the comparison. -/
noncomputable def resLE (x : Option ℝ) (t : ℝ) : Bool :=
  match x with
  | none => false
  | some v => decide (v ≤ t)

/-- np.where(residuals <= t)[0] followed by taking element [0] if the index
list is non-empty: the first candidate index whose residual passes the
threshold. -/
noncomputable def lowIdx (r : Fin 15 → Option ℝ) (t : ℝ) : Option (Fin 15) :=
  ((List.finRange 15).filter (fun i => resLE (r i) t)).head?

/-- The selection logic at the end of Catalog.goodness_of_fit_test: the
candidate at the first index with residual <= 5, else the candidate at the
first index with residual <= 10, else the maximum-curvature seed. -/
noncomputable def goodness_select (seed : ℚ) (r : Fin 15 → Option ℝ) : ℚ :=
  match lowIdx r 5 with
  | some i => tested_magnitudes seed i
  | none =>
    match lowIdx r 10 with
    | some i => tested_magnitudes seed i
    | none => seed

/-- Catalog.goodness_of_fit_test: compute the maximum-curvature seed (its
failure propagates), evaluate the residual at each of the 15 candidate
cutoffs, and select. -/
noncomputable def goodness_of_fit_test (cat : CatalogData) : Option ℚ :=
  (maximum_curvature cat).map (fun seed =>
    goodness_select seed (fun i => residual cat (tested_magnitudes seed i)))

section
open Classical in
/-- Residual-passes-threshold as a proposition: the value is present
(finite) and at most t. -/
def resBelow (x : Option ℝ) (t : ℝ) : Prop := ∃ v, x = some v ∧ v ≤ t

open Classical in
/-- Selection as the spec words it (the comparison definition for the C1
refinement claim): the lowest-index candidate whose residual is <= 5; if
none, the lowest-index candidate whose residual is <= 10; if none, the
maximum-curvature seed. -/
noncomputable def claimedSelect (seed : ℚ) (r : Fin 15 → Option ℝ) : ℚ :=
  match Fin.find (fun i => resBelow (r i) 5) with
  | some i => tested_magnitudes seed i
  | none =>
    match Fin.find (fun i => resBelow (r i) 10) with
    | some i => tested_magnitudes seed i
    | none => seed

end

theorem mem_insertDedup {a x : ℚ} {l : List ℚ} : a ∈ insertDedup x l ↔ a = x ∨ a ∈ l := by
  induction l with
  | nil => simp [insertDedup]
  | cons y ys ih =>
    by_cases h1 : x < y
    · simp [insertDedup, h1]
    · by_cases h2 : x = y
      · subst h2
        simp only [insertDedup, if_neg h1, if_pos rfl]
        constructor
        · intro h; exact Or.inr h
        · rintro (rfl | h)
          · exact List.mem_cons_self _ _
          · exact h
      · simp only [insertDedup, if_neg h1, if_neg h2, List.mem_cons, ih]
        tauto

theorem sorted_insertDedup {x : ℚ} {l : List ℚ} (h : l.Pairwise (· < ·)) :
    (insertDedup x l).Pairwise (· < ·) := by
  induction l with
  | nil => simp [insertDedup]
  | cons y ys ih =>
    rcases List.pairwise_cons.mp h with ⟨hy, hys⟩
    by_cases h1 : x < y
    · simp only [insertDedup, if_pos h1]
      refine List.pairwise_cons.mpr ⟨?_, h⟩
      intro b hb
      rcases List.mem_cons.mp hb with rfl | hb
      · exact h1
      · exact lt_trans h1 (hy b hb)
    · by_cases h2 : x = y
      · simpa [insertDedup, h1, h2] using h
      · simp only [insertDedup, if_neg h1, if_neg h2]
        refine List.pairwise_cons.mpr ⟨?_, ih hys⟩
        intro b hb
        rcases mem_insertDedup.mp hb with rfl | hb
        · exact lt_of_le_of_ne (not_lt.mp h1) (Ne.symm h2)
        · exact hy b hb

theorem distinctSorted_cons (a : ℚ) (t : List ℚ) :
    distinctSorted (a :: t) = insertDedup a (distinctSorted t) := rfl

theorem pairwise_distinctSorted (l : List ℚ) : (distinctSorted l).Pairwise (· < ·) := by
  induction l with
  | nil => simp [distinctSorted]
  | cons a t ih => exact sorted_insertDedup ih

theorem mem_distinctSorted {a : ℚ} {l : List ℚ} : a ∈ distinctSorted l ↔ a ∈ l := by
  induction l with
  | nil => simp [distinctSorted]
  | cons b t ih =>
    rw [distinctSorted_cons, mem_insertDedup, ih]
    simp [List.mem_cons]

theorem distinctSorted_ne_nil {l : List ℚ} (h : l ≠ []) : distinctSorted l ≠ [] := by
  cases l with
  | nil => exact absurd rfl h
  | cons a t =>
    intro hn
    have ha : a ∈ distinctSorted (a :: t) := mem_distinctSorted.mpr (List.mem_cons_self a t)
    rw [hn] at ha
    simp at ha

theorem headD_le_of_sorted {l : List ℚ} (h : l.Pairwise (· < ·)) {x : ℚ} (hx : x ∈ l) (d : ℚ) :
    l.headD d ≤ x := by
  cases l with
  | nil => simp at hx
  | cons a t =>
    rcases List.mem_cons.mp hx with rfl | hx
    · simp
    · exact le_of_lt ((List.pairwise_cons.mp h).1 x hx)

theorem getLastD_mem (l : List ℚ) (h : l ≠ []) : ∀ d, l.getLastD d ∈ l := by
  induction l with
  | nil => exact absurd rfl h
  | cons a t ih =>
    intro d
    cases t with
    | nil => simp
    | cons b t2 =>
      rw [List.getLastD_cons]
      exact List.mem_cons_of_mem a (ih (by simp) a)

theorem le_getLastD_of_sorted {l : List ℚ} (h : l.Pairwise (· < ·)) {x : ℚ} (hx : x ∈ l) :
    ∀ d, x ≤ l.getLastD d := by
  induction l with
  | nil => simp at hx
  | cons a t ih =>
    intro d
    rcases List.pairwise_cons.mp h with ⟨ha, ht⟩
    cases t with
    | nil =>
      rcases List.mem_cons.mp hx with rfl | hx
      · simp
      · simp at hx
    | cons b t2 =>
      rw [List.getLastD_cons]
      rcases List.mem_cons.mp hx with rfl | hx
      · exact le_of_lt (ha _ (getLastD_mem (b :: t2) (by simp) x))
      · exact ih ht hx a

theorem getD_range_map (f : ℕ → ℚ) {n i : ℕ} (h : i < n) :
    ((List.range n).map f).getD i 0 = f i := by
  rw [List.getD_eq_getElem?_getD, List.getElem?_eq_getElem (by simpa using h)]
  simp

theorem getD_map_nat (F : ℚ → ℕ) {l : List ℚ} {i : ℕ} (h : i < l.length) :
    (l.map F).getD i 0 = F (l.getD i 0) := by
  rw [List.getD_eq_getElem?_getD, List.getD_eq_getElem?_getD,
    List.getElem?_eq_getElem (by simpa using h), List.getElem?_eq_getElem h]
  simp

theorem headD_range_map (f : ℕ → ℚ) (n : ℕ) :
    ((List.range (n+1)).map f).headD 0 = f 0 := by
  rw [List.range_succ_eq_map]
  simp

theorem getLastD_range_map (f : ℕ → ℚ) (n : ℕ) :
    ((List.range (n+1)).map f).getLastD 0 = f n := by
  rw [List.range_succ, List.map_append]
  simp

@[simp] theorem buildCatalog_dm (raw : List ℚ) (dm : ℚ) : (buildCatalog raw dm).dm = dm := rfl

theorem mags_multiple (raw : List ℚ) (dm : ℚ) :
    ∀ x ∈ (buildCatalog raw dm).mags, ∃ z : ℤ, x = (z : ℚ) * dm := by
  intro x hx
  simp only [buildCatalog, List.mem_map] at hx
  obtain ⟨m, _, rfl⟩ := hx
  exact ⟨roundHalfEven (m / dm), rfl⟩

theorem buildCatalog_mags_ne_nil {raw : List ℚ} (h : raw ≠ []) (dm : ℚ) :
    (buildCatalog raw dm).mags ≠ [] := by
  simp only [buildCatalog]
  simpa using h

theorem headD_mem (l : List ℚ) (h : l ≠ []) (d : ℚ) : l.headD d ∈ l := by
  cases l with
  | nil => exact absurd rfl h
  | cons a t => simp

theorem arangeQ_eval {q1 q2 dm : ℚ} {z1 z2 : ℤ} (hdm : 0 < dm) (h1 : q1 = (z1 : ℚ) * dm)
    (h2 : q2 = (z2 : ℚ) * dm) (hz : z1 ≤ z2) :
    arangeQ q1 (q2 + dm) dm
      = (List.range ((z2 - z1).toNat + 1)).map (fun i : ℕ => q1 + (i : ℚ) * dm) := by
  rw [arangeQ]
  have hnum : q2 + dm - q1 = ((z2 - z1 + 1 : ℤ) : ℚ) * dm := by
    rw [h1, h2]; push_cast; ring
  rw [hnum, mul_div_cancel_right₀ _ (ne_of_gt hdm), Int.ceil_intCast]
  have ht : (z2 - z1 + 1).toNat = (z2 - z1).toNat + 1 := by omega
  rw [ht]

theorem grid_spec (raw : List ℚ) (dm : ℚ) (hdm : 0 < dm) (hraw : raw ≠ []) :
    ∃ k : ℕ,
      (distinctSorted (buildCatalog raw dm).mags).getLastD 0
          = (distinctSorted (buildCatalog raw dm).mags).headD 0 + (k : ℚ) * dm
      ∧ magnitudes_in_catalog (buildCatalog raw dm)
          = (List.range (k + 1)).map
              (fun i : ℕ => (distinctSorted (buildCatalog raw dm).mags).headD 0 + (i : ℚ) * dm) := by
  have hne : distinctSorted (buildCatalog raw dm).mags ≠ [] :=
    distinctSorted_ne_nil (buildCatalog_mags_ne_nil hraw dm)
  have hh : (distinctSorted (buildCatalog raw dm).mags).headD 0
      ∈ distinctSorted (buildCatalog raw dm).mags := headD_mem _ hne 0
  have hl : (distinctSorted (buildCatalog raw dm).mags).getLastD 0
      ∈ distinctSorted (buildCatalog raw dm).mags := getLastD_mem _ hne 0
  obtain ⟨z1, hz1⟩ := mags_multiple raw dm _ (mem_distinctSorted.mp hh)
  obtain ⟨z2, hz2⟩ := mags_multiple raw dm _ (mem_distinctSorted.mp hl)
  have hle : (distinctSorted (buildCatalog raw dm).mags).headD 0
      ≤ (distinctSorted (buildCatalog raw dm).mags).getLastD 0 :=
    le_getLastD_of_sorted (pairwise_distinctSorted _) hh 0
  have hz12 : z1 ≤ z2 := by
    rw [hz1, hz2] at hle
    exact_mod_cast (mul_le_mul_right hdm).mp hle
  refine ⟨(z2 - z1).toNat, ?_, ?_⟩
  · rw [hz1, hz2]
    have hc : (((z2 - z1).toNat : ℤ) : ℚ) = (z2 : ℚ) - z1 := by
      rw [Int.toNat_of_nonneg (sub_nonneg.mpr hz12)]; push_cast; ring
    push_cast at hc ⊢
    rw [hc]; ring
  · rw [magnitudes_in_catalog, buildCatalog_dm]
    exact arangeQ_eval hdm hz1 hz2 hz12

theorem mkCatalog_ok {raw : List ℚ} {dm : ℚ} {cat : CatalogData} (hraw : raw ≠ [])
    (h : mkCatalog raw dm = .ok cat) : cat = buildCatalog raw dm := by
  rw [mkCatalog, if_neg hraw] at h
  injection h with h2
  exact h2.symm

theorem grid_length (raw : List ℚ) (dm : ℚ) {k : ℕ}
    (hgrid : magnitudes_in_catalog (buildCatalog raw dm)
      = (List.range (k + 1)).map
          (fun i : ℕ => (distinctSorted (buildCatalog raw dm).mags).headD 0 + (i : ℚ) * dm)) :
    (magnitudes_in_catalog (buildCatalog raw dm)).length = k + 1 := by
  rw [hgrid]; simp

/-- C8: for a successfully constructed catalog with positive bin width, the
magnitude grid is strictly increasing with constant step delta_magnitude,
and its first and last values bracket every rounded catalog magnitude. -/
theorem grid_increasing_and_brackets (raw : List ℚ) (dm : ℚ) (cat : CatalogData)
    (i : ℕ) (m : ℚ) (hdm : 0 < dm) (hraw : raw ≠ []) (hok : mkCatalog raw dm = .ok cat)
    (hi : i + 1 < (magnitudes_in_catalog cat).length) (hm : m ∈ cat.mags) :
    (magnitudes_in_catalog cat).getD i 0 < (magnitudes_in_catalog cat).getD (i+1) 0
    ∧ (magnitudes_in_catalog cat).getD (i+1) 0 = (magnitudes_in_catalog cat).getD i 0 + dm
    ∧ (magnitudes_in_catalog cat).headD 0 ≤ m
    ∧ m ≤ (magnitudes_in_catalog cat).getLastD 0 := by
  obtain rfl := mkCatalog_ok hraw hok
  obtain ⟨k, hk, hgrid⟩ := grid_spec raw dm hdm hraw
  rw [grid_length raw dm hgrid] at hi
  have g1 : (magnitudes_in_catalog (buildCatalog raw dm)).getD i 0
      = (distinctSorted (buildCatalog raw dm).mags).headD 0 + (i : ℚ) * dm := by
    rw [hgrid]; exact getD_range_map _ (show i < k + 1 by omega)
  have g2 : (magnitudes_in_catalog (buildCatalog raw dm)).getD (i+1) 0
      = (distinctSorted (buildCatalog raw dm).mags).headD 0 + ((i+1 : ℕ) : ℚ) * dm := by
    rw [hgrid]; exact getD_range_map _ (show i + 1 < k + 1 by omega)
  have ghead : (magnitudes_in_catalog (buildCatalog raw dm)).headD 0
      = (distinctSorted (buildCatalog raw dm).mags).headD 0 := by
    rw [hgrid, headD_range_map]; simp
  have glast : (magnitudes_in_catalog (buildCatalog raw dm)).getLastD 0
      = (distinctSorted (buildCatalog raw dm).mags).getLastD 0 := by
    rw [hgrid, getLastD_range_map]; exact hk.symm
  have hstep : (magnitudes_in_catalog (buildCatalog raw dm)).getD (i+1) 0
      = (magnitudes_in_catalog (buildCatalog raw dm)).getD i 0 + dm := by
    rw [g1, g2]; push_cast; ring
  have hmds : m ∈ distinctSorted (buildCatalog raw dm).mags := mem_distinctSorted.mpr hm
  refine ⟨by rw [hstep]; linarith, hstep, ?_, ?_⟩
  · rw [ghead]; exact headD_le_of_sorted (pairwise_distinctSorted _) hmds 0
  · rw [glast]; exact le_getLastD_of_sorted (pairwise_distinctSorted _) hmds 0

/-- C7: for a successfully constructed catalog with positive bin width, the
cumulative frequency at grid bin i is the number of events with rounded
magnitude above the bin value minus delta_magnitude / 2, and the sequence
is non-increasing along the grid. -/
theorem cumulative_frequency_count_antitone (raw : List ℚ) (dm : ℚ) (cat : CatalogData)
    (i j : ℕ) (hdm : 0 < dm) (hraw : raw ≠ []) (hok : mkCatalog raw dm = .ok cat)
    (hij : i ≤ j) (hj : j < (magnitudes_in_catalog cat).length) :
    (cumulative_magnitude_frequency cat).getD i 0
        = cat.mags.countP
            (fun m => decide ((magnitudes_in_catalog cat).getD i 0 - dm / 2 < m))
    ∧ (cumulative_magnitude_frequency cat).getD j 0
        ≤ (cumulative_magnitude_frequency cat).getD i 0 := by
  obtain rfl := mkCatalog_ok hraw hok
  obtain ⟨k, hk, hgrid⟩ := grid_spec raw dm hdm hraw
  rw [grid_length raw dm hgrid] at hj
  have hi : i < (magnitudes_in_catalog (buildCatalog raw dm)).length := by
    rw [grid_length raw dm hgrid]; omega
  have hj2 : j < (magnitudes_in_catalog (buildCatalog raw dm)).length := by
    rw [grid_length raw dm hgrid]; omega
  have g1 : (magnitudes_in_catalog (buildCatalog raw dm)).getD i 0
      = (distinctSorted (buildCatalog raw dm).mags).headD 0 + (i : ℚ) * dm := by
    rw [hgrid]; exact getD_range_map _ (show i < k + 1 by omega)
  have g2 : (magnitudes_in_catalog (buildCatalog raw dm)).getD j 0
      = (distinctSorted (buildCatalog raw dm).mags).headD 0 + (j : ℚ) * dm := by
    rw [hgrid]; exact getD_range_map _ (show j < k + 1 by omega)
  constructor
  · rw [cumulative_magnitude_frequency, getD_map_nat _ hi, buildCatalog_dm]
  · rw [cumulative_magnitude_frequency, getD_map_nat _ hi, getD_map_nat _ hj2,
      buildCatalog_dm]
    apply List.countP_mono_left
    intro m hm hpj
    have hj3 : (magnitudes_in_catalog (buildCatalog raw dm)).getD j 0 - dm / 2 < m :=
      of_decide_eq_true hpj
    apply decide_eq_true
    have hmono : (magnitudes_in_catalog (buildCatalog raw dm)).getD i 0
        ≤ (magnitudes_in_catalog (buildCatalog raw dm)).getD j 0 := by
      rw [g1, g2]
      have hc : (i : ℚ) ≤ (j : ℚ) := by exact_mod_cast hij
      nlinarith
    linarith

/-- C10: for a successfully constructed catalog with positive bin width, the
first entry of the cumulative frequency sequence is the total number of
events, since every rounded magnitude exceeds the smallest grid value minus
delta_magnitude / 2. -/
theorem first_cumulative_frequency_is_total (raw : List ℚ) (dm : ℚ) (cat : CatalogData)
    (hdm : 0 < dm) (hraw : raw ≠ []) (hok : mkCatalog raw dm = .ok cat) :
    (cumulative_magnitude_frequency cat).getD 0 0 = cat.mags.length := by
  obtain rfl := mkCatalog_ok hraw hok
  obtain ⟨k, hk, hgrid⟩ := grid_spec raw dm hdm hraw
  have h0 : 0 < (magnitudes_in_catalog (buildCatalog raw dm)).length := by
    rw [grid_length raw dm hgrid]; omega
  have g0 : (magnitudes_in_catalog (buildCatalog raw dm)).getD 0 0
      = (distinctSorted (buildCatalog raw dm).mags).headD 0 := by
    rw [hgrid]
    have := getD_range_map
      (fun i : ℕ => (distinctSorted (buildCatalog raw dm).mags).headD 0 + (i : ℚ) * dm)
      (show 0 < k + 1 by omega)
    rw [this]; simp
  rw [cumulative_magnitude_frequency, getD_map_nat _ h0, buildCatalog_dm, g0,
    List.countP_eq_length]
  intro m hm
  apply decide_eq_true
  have hle := headD_le_of_sorted (pairwise_distinctSorted _) (mem_distinctSorted.mpr hm) 0
  linarith

/-- C4: constructing a Catalog from an empty event catalog fails at
construction time with the invalid-input error; no catalog object (and in
particular no empty grid) is produced. -/
theorem empty_catalog_construction_fails (dm : ℚ) :
    mkCatalog [] dm = .error .invalidInput := by
  rw [mkCatalog, if_pos rfl]

theorem diffGo_cumsumGo (l : List (ℚ × ℕ)) : ∀ acc : ℕ,
    diffGo acc (cumsumGo acc l) = l.map (fun p => (p.1, some ((p.2 : ℤ)))) := by
  induction l with
  | nil => intro acc; rfl
  | cons p r ih =>
    intro acc
    obtain ⟨m, c⟩ := p
    have hv : ((acc + c : ℕ) : ℤ) - (acc : ℤ) = (c : ℤ) := by push_cast; ring
    simp only [cumsumGo, diffGo, List.map_cons, hv, ih (acc + c)]

theorem diffPairs_cumsumPairs (l : List (ℚ × ℕ)) :
    diffPairs (cumsumPairs l) = match l with
      | [] => []
      | (m, _) :: r => (m, none) :: r.map (fun p => (p.1, some ((p.2 : ℤ)))) := by
  cases l with
  | nil => rfl
  | cons p r =>
    obtain ⟨m, c⟩ := p
    show diffPairs (cumsumGo 0 ((m, c) :: r)) = _
    simp only [cumsumGo, diffPairs]
    rw [diffGo_cumsumGo r (0 + c)]

theorem idxmaxGo_map (l : List (ℚ × ℕ)) : ∀ (bm : ℚ) (bv : ℕ),
    idxmaxGo bm (bv : ℤ) (l.map (fun p => (p.1, some ((p.2 : ℤ)))))
      = idxmaxCountsGo bm bv l := by
  induction l with
  | nil => intro bm bv; rfl
  | cons p r ih =>
    intro bm bv
    obtain ⟨m, v⟩ := p
    simp only [List.map_cons, idxmaxGo, idxmaxCountsGo]
    by_cases h : bv < v
    · rw [if_pos (show (bv : ℤ) < (v : ℤ) by exact_mod_cast h), if_pos h, ih]
    · rw [if_neg (show ¬ (bv : ℤ) < (v : ℤ) by exact_mod_cast h), if_neg h, ih]

theorem idxmaxOpt_map (l : List (ℚ × ℕ)) :
    idxmaxOpt (l.map (fun p => (p.1, some ((p.2 : ℤ))))) = idxmaxCounts l := by
  cases l with
  | nil => rfl
  | cons p r =>
    obtain ⟨m, v⟩ := p
    simp only [List.map_cons, idxmaxOpt, idxmaxCounts, idxmaxGo_map]

theorem maximum_curvature_eq_drop (c : CatalogData) :
    maximum_curvature c = idxmaxCounts ((groupCounts c).drop 1) := by
  rw [maximum_curvature, diffPairs_cumsumPairs]
  cases hg : groupCounts c with
  | nil => rfl
  | cons p r =>
    obtain ⟨m, v⟩ := p
    simp only [List.drop_succ_cons, List.drop_zero, idxmaxOpt]
    exact idxmaxOpt_map r

/-- C2 (amended): the diff of the cumsum of the per-bin counts keeps the
bins, carries no value at the first bin, and equals the raw per-bin count
at every later bin; consequently the maximum-curvature argmax equals the
per-bin-count argmax taken over the bins after the first, not over the
whole sequence. -/
theorem derivative_is_counts_after_first_bin (cat : CatalogData) :
    (diffPairs (cumsumPairs (groupCounts cat))).map Prod.fst
        = (groupCounts cat).map Prod.fst
    ∧ (diffPairs (cumsumPairs (groupCounts cat))).map Prod.snd
        = ((groupCounts cat).map (fun p => some ((p.2 : ℤ)))).set 0 none
    ∧ maximum_curvature cat = idxmaxCounts ((groupCounts cat).drop 1) := by
  refine ⟨?_, ?_, maximum_curvature_eq_drop cat⟩ <;>
  · rw [diffPairs_cumsumPairs]
    cases groupCounts cat with
    | nil => rfl
    | cons p r =>
      obtain ⟨m, v⟩ := p
      simp [List.map_map, Function.comp]

theorem idxmaxCountsGo_mem (l : List (ℚ × ℕ)) : ∀ (bm : ℚ) (bv : ℕ),
    idxmaxCountsGo bm bv l ∈ bm :: l.map Prod.fst := by
  induction l with
  | nil => intro bm bv; simp [idxmaxCountsGo]
  | cons q r ih =>
    intro bm bv
    obtain ⟨m, v⟩ := q
    simp only [idxmaxCountsGo, List.map_cons]
    by_cases h : bv < v
    · rw [if_pos h]
      exact List.mem_cons_of_mem bm (ih m v)
    · rw [if_neg h]
      rcases List.mem_cons.mp (ih bm bv) with h2 | h2
      · rw [h2]; exact List.mem_cons_self _ _
      · exact List.mem_cons_of_mem bm (List.mem_cons_of_mem m h2)

theorem groupCounts_keys (cat : CatalogData) :
    (groupCounts cat).map Prod.fst = distinctSorted cat.mags := by
  rw [groupCounts, List.map_map]
  have : (Prod.fst ∘ fun v : ℚ => (v, cat.mags.count v)) = id := by
    funext v; rfl
  rw [this, List.map_id]

/-- C9: when the catalog has at least two distinct rounded magnitudes,
maximum_curvature never returns the smallest one, even if its bin holds the
largest per-bin count, because the first entry of the differenced
cumulative series carries no value and idxmax skips it. -/
theorem maximum_curvature_skips_first_bin (cat : CatalogData) (p : ℚ × ℕ)
    (r : List (ℚ × ℕ)) (hg : groupCounts cat = p :: r) (hr : r ≠ []) :
    maximum_curvature cat ≠ some p.1 := by
  rw [maximum_curvature_eq_drop, hg]
  cases r with
  | nil => exact absurd rfl hr
  | cons q r2 =>
    simp only [List.drop_succ_cons, List.drop_zero, idxmaxCounts]
    intro h
    injection h with h
    have hmem : p.1 ∈ q.1 :: r2.map Prod.fst := h ▸ idxmaxCountsGo_mem r2 q.1 q.2
    have hpair : ((p :: q :: r2).map Prod.fst).Pairwise (· < ·) := by
      rw [← hg, groupCounts_keys]
      exact pairwise_distinctSorted _
    simp only [List.map_cons] at hpair
    have hlt := (List.pairwise_cons.mp hpair).1 p.1 hmem
    exact lt_irrefl _ hlt

theorem buildCatalog_three_ones : buildCatalog [1, 1, 1] 1 = ⟨[1, 1, 1], 1⟩ := by
  rw [buildCatalog]
  norm_num [roundHalfEven]

theorem buildCatalog_two_bins : buildCatalog [1, 1, 2] 1 = ⟨[1, 1, 2], 1⟩ := by
  rw [buildCatalog]
  norm_num [roundHalfEven]

theorem buildCatalog_heavy_top : buildCatalog [1, 2, 2] 1 = ⟨[1, 2, 2], 1⟩ := by
  rw [buildCatalog]
  norm_num [roundHalfEven]

theorem buildCatalog_spread : buildCatalog [1, 3] 1 = ⟨[1, 3], 1⟩ := by
  rw [buildCatalog]
  norm_num [roundHalfEven]

theorem groupCounts_three_ones : groupCounts ⟨[1, 1, 1], 1⟩ = [(1, 3)] := by
  rw [groupCounts]
  norm_num [distinctSorted, insertDedup, List.count_cons, List.count_nil]

theorem groupCounts_two_bins : groupCounts ⟨[1, 1, 2], 1⟩ = [(1, 2), (2, 1)] := by
  rw [groupCounts]
  norm_num [distinctSorted, insertDedup, List.count_cons, List.count_nil]

theorem groupCounts_heavy_top : groupCounts ⟨[1, 2, 2], 1⟩ = [(1, 1), (2, 2)] := by
  rw [groupCounts]
  norm_num [distinctSorted, insertDedup, List.count_cons, List.count_nil]

theorem maximum_curvature_three_ones : maximum_curvature (buildCatalog [1, 1, 1] 1) = none := by
  rw [maximum_curvature, buildCatalog_three_ones, groupCounts_three_ones]
  rfl

theorem maximum_curvature_two_bins : maximum_curvature (buildCatalog [1, 1, 2] 1) = some 2 := by
  rw [maximum_curvature, buildCatalog_two_bins, groupCounts_two_bins]
  norm_num [cumsumPairs, cumsumGo, diffPairs, diffGo, idxmaxOpt, idxmaxGo]

theorem maximum_curvature_heavy_top : maximum_curvature (buildCatalog [1, 2, 2] 1) = some 2 := by
  rw [maximum_curvature, buildCatalog_heavy_top, groupCounts_heavy_top]
  norm_num [cumsumPairs, cumsumGo, diffPairs, diffGo, idxmaxOpt, idxmaxGo]

theorem most_common_two_bins : most_common_magnitude (buildCatalog [1, 1, 2] 1) = some 1 := by
  rw [most_common_magnitude, buildCatalog_two_bins, groupCounts_two_bins]
  norm_num [idxmaxCounts, idxmaxCountsGo]

/-- C2 counterexample: for the catalog with rounded magnitudes [1, 1, 2]
and bin width 1, the differenced cumulative sequence is not pointwise equal
to the per-bin counts (its first entry carries no value), and the
maximum-curvature argmax (2) differs from the per-bin-count argmax (1). -/
theorem derivative_mismatch_example :
    (diffPairs (cumsumPairs (groupCounts (buildCatalog [1, 1, 2] 1)))).map Prod.snd
        ≠ (groupCounts (buildCatalog [1, 1, 2] 1)).map (fun p => some ((p.2 : ℤ)))
    ∧ maximum_curvature (buildCatalog [1, 1, 2] 1)
        ≠ most_common_magnitude (buildCatalog [1, 1, 2] 1) := by
  constructor
  · rw [buildCatalog_two_bins, groupCounts_two_bins]
    norm_num [cumsumPairs, cumsumGo, diffPairs, diffGo]
    exact fun h => Option.noConfusion h
  · rw [maximum_curvature_two_bins, most_common_two_bins]
    norm_num

/-- C3 (code bug): on a catalog whose events all share one rounded
magnitude (here three events of magnitude 1 with bin width 1), the
differenced cumulative series is a single missing value, so the idxmax
step of maximum_curvature fails instead of returning that magnitude. -/
theorem maximum_curvature_single_value_fails :
    maximum_curvature (buildCatalog [1, 1, 1] 1) = none
    ∧ maximum_curvature (buildCatalog [1, 1, 1] 1) ≠ some 1 := by
  rw [maximum_curvature_three_ones]
  exact ⟨rfl, fun h => Option.noConfusion h⟩

/-- C9 witness: for the catalog [1, 1, 2] with bin width 1, whose lowest
bin holds the strictly largest count, maximum_curvature does not return the
lowest distinct magnitude. -/
theorem maximum_curvature_skips_first_bin_example :
    maximum_curvature (buildCatalog [1, 1, 2] 1) ≠ some 1 := by
  exact maximum_curvature_skips_first_bin (buildCatalog [1, 1, 2] 1) (1, 2) [(2, 1)]
    (by rw [buildCatalog_two_bins]; exact groupCounts_two_bins) (by simp)

theorem head_filter_eq_some_iff {n : ℕ} (l : List (Fin n)) (hl : l.Pairwise (· < ·))
    (p : Fin n → Bool) (x : Fin n) :
    (l.filter p).head? = some x
      ↔ x ∈ l ∧ p x = true ∧ ∀ j ∈ l, j < x → p j = false := by
  induction l with
  | nil => simp
  | cons a t ih =>
    rcases List.pairwise_cons.mp hl with ⟨ha, ht⟩
    by_cases hpa : p a
    · rw [List.filter_cons_of_pos hpa]
      simp only [List.head?_cons, Option.some.injEq]
      constructor
      · rintro rfl
        refine ⟨List.mem_cons_self _ _, hpa, ?_⟩
        intro j hj hja
        rcases List.mem_cons.mp hj with rfl | hj2
        · exact absurd hja (lt_irrefl _)
        · exact absurd hja (not_lt.mpr (le_of_lt (ha j hj2)))
      · rintro ⟨hx, hpx, hmin⟩
        rcases List.mem_cons.mp hx with rfl | hx2
        · rfl
        · have hfalse := hmin a (List.mem_cons_self _ _) (ha x hx2)
          rw [hpa] at hfalse
          exact absurd hfalse (by simp)
    · rw [List.filter_cons_of_neg hpa, ih ht]
      constructor
      · rintro ⟨hx, hpx, hmin⟩
        refine ⟨List.mem_cons_of_mem a hx, hpx, ?_⟩
        intro j hj hjx
        rcases List.mem_cons.mp hj with rfl | hj2
        · exact Bool.eq_false_iff.mpr hpa
        · exact hmin j hj2 hjx
      · rintro ⟨hx, hpx, hmin⟩
        rcases List.mem_cons.mp hx with rfl | hx2
        · exact absurd hpx hpa
        · exact ⟨hx2, hpx, fun j hj hjx => hmin j (List.mem_cons_of_mem a hj) hjx⟩

theorem head_filter_eq_none_iff {n : ℕ} (p : Fin n → Bool) :
    ((List.finRange n).filter p).head? = none ↔ ∀ j, p j = false := by
  rw [List.head?_eq_none_iff, List.filter_eq_nil_iff]
  constructor
  · intro h j
    exact Bool.eq_false_iff.mpr (h j (List.mem_finRange j))
  · intro h a _
    rw [h a]
    simp

theorem lowIdx_eq_some_iff (r : Fin 15 → Option ℝ) (t : ℝ) (x : Fin 15) :
    lowIdx r t = some x
      ↔ resLE (r x) t = true ∧ ∀ j, j < x → resLE (r j) t = false := by
  rw [lowIdx, head_filter_eq_some_iff _ (List.pairwise_lt_finRange 15)]
  simp [List.mem_finRange]

theorem lowIdx_eq_none_iff (r : Fin 15 → Option ℝ) (t : ℝ) :
    lowIdx r t = none ↔ ∀ j, resLE (r j) t = false := by
  rw [lowIdx, head_filter_eq_none_iff]

theorem resLE_iff (x : Option ℝ) (t : ℝ) : resLE x t = true ↔ resBelow x t := by
  cases x with
  | none => simp [resLE, resBelow]
  | some v => simp [resLE, resBelow]

section
open Classical

theorem lowIdx_eq_find (r : Fin 15 → Option ℝ) (t : ℝ) :
    lowIdx r t = Fin.find (fun i => resBelow (r i) t) := by
  cases hf : Fin.find (fun i => resBelow (r i) t) with
  | none =>
    rw [lowIdx_eq_none_iff]
    intro j
    have hj := Fin.find_eq_none_iff.mp hf j
    rw [← resLE_iff] at hj
    simp only [Bool.not_eq_true] at hj
    exact hj
  | some i =>
    rw [lowIdx_eq_some_iff]
    obtain ⟨hpi, hmin⟩ := Fin.find_eq_some_iff.mp hf
    refine ⟨(resLE_iff _ _).mpr hpi, ?_⟩
    intro j hj
    rw [← Bool.not_eq_true, resLE_iff]
    intro hb
    exact absurd (hmin j hb) (not_le.mpr hj)

theorem goodness_select_eq_claimed (seed : ℚ) (r : Fin 15 → Option ℝ) :
    goodness_select seed r = claimedSelect seed r := by
  rw [goodness_select, claimedSelect, ← lowIdx_eq_find, ← lowIdx_eq_find]

end

/-- C1: whenever the maximum-curvature seed exists, goodness_of_fit_test
returns exactly the selection the spec describes: the lowest-index of the
15 candidate cutoffs whose residual is at most 5, else the lowest-index
candidate with residual at most 10, else the maximum-curvature seed
itself. -/
theorem goodness_of_fit_selects_first_low_residual (cat : CatalogData) (seed : ℚ)
    (h : maximum_curvature cat = some seed) :
    goodness_of_fit_test cat
      = some (claimedSelect seed (fun i => residual cat (tested_magnitudes seed i))) := by
  rw [goodness_of_fit_test, h, Option.map_some', goodness_select_eq_claimed]

/-- C1 witness: the selection equation instantiated on the concrete catalog
[1, 2, 2] with bin width 1, whose maximum-curvature seed is 2. -/
theorem goodness_of_fit_selects_first_low_residual_example :
    goodness_of_fit_test (buildCatalog [1, 2, 2] 1)
      = some (claimedSelect 2
          (fun i => residual (buildCatalog [1, 2, 2] 1) (tested_magnitudes 2 i))) :=
  goodness_of_fit_selects_first_low_residual _ 2 maximum_curvature_heavy_top

/-- Residual vector with value 8 at index 0, 3 at index 1, missing
elsewhere (counterexample data for the threshold-search comparison). -/
noncomputable def residualsMixed (i : Fin 15) : Option ℝ :=
  if i = 0 then some 8 else if i = 1 then some 3 else none

/-- Residual vector with value 3 at index 0 and missing elsewhere (witness
data for the threshold-search comparison). -/
noncomputable def residualsSingleLow (i : Fin 15) : Option ℝ :=
  if i = 0 then some 3 else none

/-- C6 counterexample: with residuals 8 at index 0, 3 at index 1 and
missing elsewhere, the 95% search selects index 1 while the 90% search
selects index 0 on the same residuals, so the 95%-selected magnitude
(seed - 0.4, here with seed 0) is strictly greater than the 90%-selected
magnitude (seed - 0.5), refuting the claimed inequality. -/
theorem strict_search_selects_higher_example :
    lowIdx residualsMixed 5 = some 1
    ∧ lowIdx residualsMixed 10 = some 0
    ∧ ¬ tested_magnitudes 0 1 ≤ tested_magnitudes 0 0 := by
  have hv0 : residualsMixed 0 = some 8 := rfl
  have hv1 : residualsMixed 1 = some 3 := rfl
  refine ⟨?_, ?_, ?_⟩
  · rw [lowIdx_eq_some_iff]
    constructor
    · rw [hv1]
      simp only [resLE, decide_eq_true_eq]
      norm_num
    · intro j hj
      have h1 : ((1 : Fin 15) : ℕ) = 1 := rfl
      have hj0 : j = 0 := by
        rw [Fin.lt_def, h1] at hj
        exact Fin.ext (by omega)
      rw [hj0, hv0]
      simp only [resLE, decide_eq_false_iff_not]
      norm_num
  · rw [lowIdx_eq_some_iff]
    constructor
    · rw [hv0]
      simp only [resLE, decide_eq_true_eq]
      norm_num
    · intro j hj
      have h0 : ((0 : Fin 15) : ℕ) = 0 := rfl
      rw [Fin.lt_def, h0] at hj
      omega
  · rw [tested_magnitudes, tested_magnitudes]
    have h1 : (((1 : Fin 15) : ℕ) : ℚ) = 1 := rfl
    have h0 : (((0 : Fin 15) : ℕ) : ℚ) = 0 := rfl
    rw [h1, h0]
    norm_num

/-- C6 (amended): whenever the 95% search succeeds at index i, the 90%
search on the same residuals also succeeds, at an index no larger than i,
so the 90%-selected candidate magnitude is at most the 95%-selected one
(loosening the threshold never moves the selection to a higher cutoff). -/
theorem loose_search_not_higher (r : Fin 15 → Option ℝ) (i : Fin 15) (seed : ℚ)
    (h : lowIdx r 5 = some i) :
    ∃ j : Fin 15, lowIdx r 10 = some j ∧ j ≤ i
      ∧ tested_magnitudes seed j ≤ tested_magnitudes seed i := by
  obtain ⟨hpi, hmin⟩ := (lowIdx_eq_some_iff r 5 i).mp h
  have hpi10 : resLE (r i) 10 = true := by
    rcases (resLE_iff _ _).mp hpi with ⟨v, hv, hvle⟩
    exact (resLE_iff _ _).mpr ⟨v, hv, by linarith⟩
  cases h10 : lowIdx r 10 with
  | none =>
    rw [lowIdx_eq_none_iff] at h10
    rw [h10 i] at hpi10
    exact absurd hpi10 (by simp)
  | some j =>
    obtain ⟨hpj, hmin10⟩ := (lowIdx_eq_some_iff r 10 j).mp h10
    have hji : j ≤ i := by
      by_contra hc
      push_neg at hc
      have hfalse := hmin10 i hc
      rw [hpi10] at hfalse
      exact absurd hfalse (by simp)
    refine ⟨j, rfl, hji, ?_⟩
    rw [tested_magnitudes, tested_magnitudes]
    have hc : ((j : ℕ) : ℚ) ≤ ((i : ℕ) : ℚ) := by
      have hn : (j : ℕ) ≤ (i : ℕ) := hji
      exact_mod_cast hn
    linarith

/-- C6 witness: with a residual of 3 at index 0 and missing residuals
elsewhere, the 95% search selects index 0 and the 90% search selects an
index (and hence a candidate magnitude, with seed 0) no larger than it. -/
theorem loose_search_not_higher_example :
    ∃ j : Fin 15, lowIdx residualsSingleLow 10 = some j ∧ j ≤ 0
      ∧ tested_magnitudes 0 j ≤ tested_magnitudes 0 0 := by
  apply loose_search_not_higher residualsSingleLow 0 0
  rw [lowIdx_eq_some_iff]
  constructor
  · have hv : residualsSingleLow 0 = some 3 := rfl
    rw [hv]
    simp only [resLE, decide_eq_true_eq]
    norm_num
  · intro j hj
    have h0 : ((0 : Fin 15) : ℕ) = 0 := rfl
    rw [Fin.lt_def, h0] at hj
    omega

theorem grid_spread_eval : magnitudes_in_catalog (buildCatalog [1, 3] 1) = [1, 2, 3] := by
  rw [buildCatalog_spread, magnitudes_in_catalog]
  have hds : distinctSorted ([1, 3] : List ℚ) = [1, 3] := by
    norm_num [distinctSorted, insertDedup]
  show arangeQ ((distinctSorted [1, 3]).headD 0) ((distinctSorted [1, 3]).getLastD 0 + 1) 1
      = [1, 2, 3]
  rw [hds]
  have hh : ([1, 3] : List ℚ).headD 0 = 1 := rfl
  have hl : ([1, 3] : List ℚ).getLastD 0 = 3 := rfl
  rw [hh, hl, arangeQ]
  have hc : (⌈((3 : ℚ) + 1 - 1) / 1⌉).toNat = 3 := by
    norm_num
    rfl
  rw [hc]
  have hr : List.range 3 = [0, 1, 2] := rfl
  rw [hr]
  norm_num

/-- C7 witness: the cumulative-frequency identity and monotonicity
instantiated on the catalog [1, 3] with bin width 1 at grid indices 0
and 2. -/
theorem cumulative_frequency_count_antitone_example :
    (cumulative_magnitude_frequency (buildCatalog [1, 3] 1)).getD 0 0
        = (buildCatalog [1, 3] 1).mags.countP
            (fun m => decide
              ((magnitudes_in_catalog (buildCatalog [1, 3] 1)).getD 0 0 - 1 / 2 < m))
    ∧ (cumulative_magnitude_frequency (buildCatalog [1, 3] 1)).getD 2 0
        ≤ (cumulative_magnitude_frequency (buildCatalog [1, 3] 1)).getD 0 0 :=
  cumulative_frequency_count_antitone [1, 3] 1 (buildCatalog [1, 3] 1) 0 2 (by norm_num)
    (by simp) (by rw [mkCatalog, if_neg (by simp)]) (by omega)
    (by rw [grid_spread_eval]; norm_num)

/-- C8 witness: grid step, strict increase and bracketing instantiated on
the catalog [1, 3] with bin width 1, at grid index 0 and magnitude 3. -/
theorem grid_increasing_and_brackets_example :
    (magnitudes_in_catalog (buildCatalog [1, 3] 1)).getD 0 0
        < (magnitudes_in_catalog (buildCatalog [1, 3] 1)).getD (0 + 1) 0
    ∧ (magnitudes_in_catalog (buildCatalog [1, 3] 1)).getD (0 + 1) 0
        = (magnitudes_in_catalog (buildCatalog [1, 3] 1)).getD 0 0 + 1
    ∧ (magnitudes_in_catalog (buildCatalog [1, 3] 1)).headD 0 ≤ 3
    ∧ (3 : ℚ) ≤ (magnitudes_in_catalog (buildCatalog [1, 3] 1)).getLastD 0 :=
  grid_increasing_and_brackets [1, 3] 1 (buildCatalog [1, 3] 1) 0 3 (by norm_num)
    (by simp) (by rw [mkCatalog, if_neg (by simp)])
    (by rw [grid_spread_eval]; norm_num)
    (by rw [buildCatalog_spread]; norm_num [List.mem_cons])

/-- C10 witness: the first cumulative-frequency entry on the catalog [1, 3]
with bin width 1 equals the number of events. -/
theorem first_cumulative_frequency_is_total_example :
    (cumulative_magnitude_frequency (buildCatalog [1, 3] 1)).getD 0 0
        = (buildCatalog [1, 3] 1).mags.length :=
  first_cumulative_frequency_is_total [1, 3] 1 (buildCatalog [1, 3] 1) (by norm_num)
    (by simp) (by rw [mkCatalog, if_neg (by simp)])

/-- C1 counterexample: the catalog of three events of magnitude 1 with bin
width 1 is successfully constructed, yet goodness_of_fit_test produces no
value at all — the maximum-curvature seed computation inside it fails on
the single-bin catalog (see C3), so the method returns neither a sweep
candidate nor the seed, refuting the claim for every successfully
constructed catalog. -/
theorem goodness_of_fit_fails_single_bin :
    mkCatalog [1, 1, 1] 1 = .ok (buildCatalog [1, 1, 1] 1)
    ∧ goodness_of_fit_test (buildCatalog [1, 1, 1] 1) = none := by
  constructor
  · rw [mkCatalog, if_neg (by simp)]
  · rw [goodness_of_fit_test, maximum_curvature_three_ones]
    rfl

end CompletenessMagnitude
